import Mathlib

/-
Verification of the keyword-search tool (search_multiprocessing.py and
search_threading.py) against its specification.

Shallow embedding conventions:
* Python strings (paths, keywords, file contents) are `List Char`.
* `str.lower()` is `strLower` (character-wise `Char.toLower`).
* Python's substring test `needle in haystack` is `pyIn`.
* A Python `dict` keyed by strings is an association list in insertion
  order (`Dict`): `d[k] = v` (`dupdate`) replaces the value of the first
  entry with key `k`, keeping its position, or appends a fresh entry at
  the end; lookup (`dlookup`) reads the first entry with the key.
* The filesystem is a read function `Str → Option Str`: `none` means
  `Path.read_text` raised (missing file, permission error, I/O error);
  `some c` means reading succeeded with decoded content `c` (decoding is
  total in the source because of `errors="ignore"`).
* Fallible code is `Option`-valued: `scan_files` and `merge_into` return
  `none` exactly when the corresponding Python would raise a `KeyError`
  out of `out[kw].append(...)` / `dst[k].extend(v)`.
-/

abbrev Str := List Char

/-- `str.lower()`: character-wise lower-casing, as Python does per code point. -/
def strLower (s : Str) : Str := s.map Char.toLower

/-- Does the second string start with the first? (helper for `pyIn`). -/
def strStarts : Str → Str → Bool
  | [], _ => true
  | _ :: _, [] => false
  | a :: as, b :: bs => decide (a = b) && strStarts as bs

/-- Python's substring containment test `needle in haystack`. -/
def pyIn (needle : Str) : Str → Bool
  | [] => strStarts needle []
  | c :: rest => strStarts needle (c :: rest) || pyIn needle rest

/-- A Python `dict` from keyword strings to lists of path strings,
in insertion order. -/
abbrev Dict := List (Str × List Str)

/-- The keys of a dict, in insertion order. -/
def dkeys (d : Dict) : List Str := d.map Prod.fst

/-- Python `d[k]` as a total lookup: `some v` when present, `none` when a
`KeyError` would be raised. -/
def dlookup : Dict → Str → Option (List Str)
  | [], _ => none
  | (k0, v0) :: rest, k => if k0 = k then some v0 else dlookup rest k

/-- Python `d[k] = v`: replace the value of the first entry with key `k`
(keeping its position) or append a fresh entry at the end. -/
def dupdate : Dict → Str → List Str → Dict
  | [], k, v => [(k, v)]
  | (k0, v0) :: rest, k, v =>
      if k0 = k then (k0, v) :: rest else (k0, v0) :: dupdate rest k v

/-- `{kw: [] for kw in keywords}` — the dict comprehension that both
`scan_files` bodies and both `main`s use to pre-populate results. -/
def initDict (keywords : List Str) : Dict :=
  keywords.foldl (fun d kw => dupdate d kw []) []

/-- The inner loop of `scan_files` for one file `p` whose lower-cased
content is `text`: iterate over `zip(keywords, lower_keywords)` and append
`str(p)` to `out[kw]` whenever `lkw in text`.  `none` models the `KeyError`
that `out[kw].append` would raise on a missing key (the exception would
escape `scan_files`, since only the read is inside the `try`). -/
def scanOne (p text : Str) : List (Str × Str) → Dict → Option Dict
  | [], out => some out
  | (kw, lkw) :: rest, out =>
      if pyIn lkw text then
        match dlookup out kw with
        | none => none
        | some v => scanOne p text rest (dupdate out kw (v ++ [p]))
      else scanOne p text rest out

/-- The loop body of `scan_files` for one file `p`: `try: text =
p.read_text(...).lower() except Exception: continue`, then the keyword
loop (`scanOne`). -/
def scanStep (readF : Str → Option Str) (keywords lowerKeywords : List Str)
    (acc : Option Dict) (p : Str) : Option Dict :=
  acc.bind fun out =>
    match readF p with
    | none => some out
    | some content => scanOne p (strLower content) (keywords.zip lowerKeywords) out

/-- `scan_files(files, keywords)` — identical in both source files.
`readF` is the filesystem; a `none` read is the `except Exception: continue`
branch.  Python's `str(p)` on a path is the identity here since paths are
already strings. -/
def scan_files (readF : Str → Option Str) (files : List Str)
    (keywords : List Str) : Option Dict :=
  let lowerKeywords := keywords.map strLower
  files.foldl (scanStep readF keywords lowerKeywords) (some (initDict keywords))

/-- `merge(a, b)` from search_multiprocessing.py:
`for k, v in b.items(): a.setdefault(k, []).extend(v)`. -/
def merge (a b : Dict) : Dict :=
  b.foldl (fun acc kv => dupdate acc kv.1 (((dlookup acc kv.1).getD []) ++ kv.2)) a

/-- One iteration of `merge_into`'s loop: `dst[k].extend(v)`, with `none`
for the `KeyError` a missing key would raise. -/
def mergeIntoStep (acc : Option Dict) (kv : Str × List Str) : Option Dict :=
  acc.bind fun d =>
    match dlookup d kv.1 with
    | none => none
    | some v => some (dupdate d kv.1 (v ++ kv.2))

/-- `merge_into(dst, src)` from search_threading.py:
`for k, v in src.items(): dst[k].extend(v)`.  Unlike `merge` there is no
`setdefault` guard, so a missing key raises `KeyError`, modelled as `none`. -/
def merge_into (dst src : Dict) : Option Dict :=
  src.foldl mergeIntoStep (some dst)

/-- Python's `seq[i:i+k]` slices at the indices of `range(0, len(seq), k)`:
`range(0, L, k)` visits the ceil(L / k) indices `0, k, 2k, …`, and
`seq[i:i+k]` is `(seq.drop i).take k`.  This is the generator body of
`chunked` for a fixed chunk size `k`. -/
def pySlices (seq : List Str) (k : Nat) : List (List Str) :=
  (List.range ((seq.length + k - 1) / k)).map (fun i => (seq.drop (i * k)).take k)

/-- `chunked(seq, n)` — identical in both source files:
if `n <= 0` then `n = 1`; `k = max(1, len(seq)//n + (1 if len(seq)%n else 0))`;
yield `seq[i:i+k]` for `i in range(0, len(seq), k)`. -/
def chunked (seq : List Str) (n : Int) : List (List Str) :=
  let m : Nat := if n ≤ 0 then 1 else n.toNat
  let k : Nat := max 1 (seq.length / m + (if seq.length % m ≠ 0 then 1 else 0))
  pySlices seq k

/-- Number of occurrences of keyword `k` in the keyword list (Python keeps
duplicate keywords in the list even though the dict deduplicates keys). -/
def occCount (keywords : List Str) (k : Str) : Nat :=
  keywords.countP (fun x => decide (x = k))

/-- Does scanning file `p` for keyword `k` record a match?  True iff the
read succeeds and the lower-cased keyword occurs in the lower-cased
content — the test `lkw in text` of `scan_files`. -/
def fileMatches (readF : Str → Option Str) (k p : Str) : Bool :=
  match readF p with
  | none => false
  | some content => pyIn (strLower k) (strLower content)

/-- The list of paths that `scan_files` accumulates under keyword `k`:
each matching file contributes its path once per occurrence of `k` in the
keyword list, in file order. -/
def matchList (readF : Str → Option Str) (keywords : List Str)
    (files : List Str) (k : Str) : List Str :=
  files.flatMap (fun p =>
    if fileMatches readF k p then List.replicate (occCount keywords k) p else [])

/-- One step of the multiprocessing driver's collection loop: receive a
worker's PartialResult (the `scan_files` of its chunk) and
`merge(result, part)`.  The driver performs one blocking receive per
worker; we take the receives in chunk order (the merged outcome is proved
independent of it). -/
def mpStep (readF : Str → Option Str) (keywords : List Str)
    (acc : Option Dict) (ch : List Str) : Option Dict :=
  acc.bind fun r => (scan_files readF ch keywords).map (fun part => merge r part)

/-- The multiprocessing `main`'s scan-and-aggregate phase: pre-populate
`result = {kw: [] for kw in keywords}`, run `scan_files` on every chunk of
`chunked(files, n_proc)` and merge each PartialResult into `result`. -/
def run_multiprocessing (readF : Str → Option Str) (files : List Str)
    (keywords : List Str) (n : Int) : Option Dict :=
  (chunked files n).foldl (mpStep readF keywords) (some (initDict keywords))

/-- One step of the threading driver: a worker computes its PartialResult
locally and then, under the single lock, `merge_into(shared, part)`.
Workers are serialized by the lock; we take them in chunk order (the merged
outcome is proved independent of it). -/
def thStep (readF : Str → Option Str) (keywords : List Str)
    (acc : Option Dict) (ch : List Str) : Option Dict :=
  acc.bind fun shared =>
    (scan_files readF ch keywords).bind fun part => merge_into shared part

/-- The threading `main`'s scan-and-aggregate phase: pre-populate
`shared = {kw: [] for kw in keywords}`, run one worker per chunk of
`chunked(files, args.threads)`, each merging its PartialResult into
`shared` under the lock, and join them all. -/
def run_threading (readF : Str → Option Str) (files : List Str)
    (keywords : List Str) (n : Int) : Option Dict :=
  (chunked files n).foldl (thStep readF keywords) (some (initDict keywords))

/-- The whole `main` pipeline over an abstract enumerator: `files =
sorted(root.glob(pattern))`, then scan and aggregate.  `glob` is total
(returning a sorted path list) because CPython's `pathlib.Path.glob`
raises nothing and yields no entries when the root is missing or not a
directory; `main` has no other branch on root validity and unconditionally
prints the result. -/
def main_search (glob : Str → List Str) (readF : Str → Option Str)
    (root : Str) (keywords : List Str) (n : Int) : Option Dict :=
  run_multiprocessing readF (glob root) keywords n

/-- Test fixture: a filesystem with one readable file `"a"` whose content
is `"R"` (upper case, to exercise case-insensitive matching). -/
def readFix : Str → Option Str := fun p => if p = ['a'] then some ['R'] else none

/-- Test fixture: file `"b"` is unreadable; every other path reads as
`"r"`. -/
def readFixBad : Str → Option Str := fun p => if p = ['b'] then none else some ['r']

/-- Test fixture: every path reads successfully with content `"a"`. -/
def readAll : Str → Option Str := fun _ => some ['a']

/-! ### Dictionary lemmas -/

theorem dlookup_dupdate (d : Dict) (k k' : Str) (v : List Str) :
    dlookup (dupdate d k v) k' = if k' = k then some v else dlookup d k' := by
  induction d with
  | nil =>
      simp only [dupdate, dlookup]
      rcases eq_or_ne k' k with h | h
      · subst h; simp
      · rw [if_neg (Ne.symm h), if_neg h]
  | cons kv rest ih =>
      obtain ⟨k0, v0⟩ := kv
      simp only [dupdate]
      rcases eq_or_ne k0 k with h0 | h0
      · subst h0
        simp only [if_pos rfl, dlookup]
        rcases eq_or_ne k0 k' with h1 | h1
        · subst h1; simp
        · rw [if_neg h1, if_neg (Ne.symm h1), if_neg h1]
      · rw [if_neg h0]
        simp only [dlookup]
        rcases eq_or_ne k0 k' with h1 | h1
        · subst h1
          rw [if_pos rfl, if_pos rfl, if_neg h0]
        · rw [if_neg h1, if_neg h1]
          exact ih

theorem mem_dkeys_iff (d : Dict) (k : Str) :
    k ∈ dkeys d ↔ (dlookup d k).isSome := by
  induction d with
  | nil => simp [dkeys, dlookup]
  | cons kv rest ih =>
      obtain ⟨k0, v0⟩ := kv
      simp only [dkeys, List.map_cons, List.mem_cons, dlookup]
      by_cases h : k0 = k
      · subst h; simp
      · simp only [if_neg h]
        constructor
        · rintro (h1 | h1)
          · exact absurd h1.symm h
          · exact (ih.mp h1)
        · intro h1; exact Or.inr (ih.mpr h1)

theorem dkeys_dupdate_of_mem (d : Dict) (k : Str) (v : List Str)
    (h : k ∈ dkeys d) : dkeys (dupdate d k v) = dkeys d := by
  induction d with
  | nil => simp [dkeys] at h
  | cons kv rest ih =>
      obtain ⟨k0, v0⟩ := kv
      rcases eq_or_ne k0 k with h0 | h0
      · simp [dupdate, if_pos h0, dkeys]
      · have hmem : k ∈ dkeys rest := by
          simp only [dkeys, List.map_cons, List.mem_cons] at h
          rcases h with h | h
          · exact absurd h.symm h0
          · exact h
        simp only [dupdate, if_neg h0, dkeys, List.map_cons]
        have hr := ih hmem
        simp only [dkeys] at hr
        rw [hr]

theorem dkeys_dupdate_of_not_mem (d : Dict) (k : Str) (v : List Str)
    (h : k ∉ dkeys d) : dkeys (dupdate d k v) = dkeys d ++ [k] := by
  induction d with
  | nil => simp [dkeys, dupdate]
  | cons kv rest ih =>
      obtain ⟨k0, v0⟩ := kv
      simp only [dkeys, List.map_cons, List.mem_cons] at h
      push_neg at h
      simp only [dupdate, if_neg (fun hh : k0 = k => h.1 hh.symm), dkeys,
        List.map_cons, List.cons_append, List.cons.injEq, true_and]
      exact ih h.2

/-- Extensionality: dicts with the same (duplicate-free) key sequence and
the same lookups are equal. -/
theorem dict_ext (d1 d2 : Dict) (hk : dkeys d1 = dkeys d2)
    (hnd : (dkeys d1).Nodup) (hl : ∀ k, dlookup d1 k = dlookup d2 k) :
    d1 = d2 := by
  induction d1 generalizing d2 with
  | nil =>
      cases d2 with
      | nil => rfl
      | cons kv rest => simp [dkeys] at hk
  | cons kv rest ih =>
      obtain ⟨k0, v0⟩ := kv
      cases d2 with
      | nil => simp [dkeys] at hk
      | cons kv2 rest2 =>
          obtain ⟨k2, v2⟩ := kv2
          simp only [dkeys, List.map_cons, List.cons.injEq] at hk
          obtain ⟨hk0, hkr⟩ := hk
          subst hk0
          have hv : v0 = v2 := by
            have := hl k0
            simp [dlookup] at this
            exact this
          subst hv
          simp only [dkeys, List.map_cons, List.nodup_cons] at hnd
          have hrest : rest = rest2 := by
            apply ih
            · exact hkr
            · exact hnd.2
            · intro k
              by_cases h : k = k0
              · subst h
                have h1 : dlookup rest k = none := by
                  cases hh : dlookup rest k with
                  | none => rfl
                  | some v =>
                      exfalso
                      exact hnd.1 ((mem_dkeys_iff rest k).mpr (by simp [hh]))
                have h2 : dlookup rest2 k = none := by
                  cases hh : dlookup rest2 k with
                  | none => rfl
                  | some v =>
                      exfalso
                      have : k ∈ dkeys rest2 :=
                        (mem_dkeys_iff rest2 k).mpr (by simp [hh])
                      simp only [dkeys] at this
                      rw [← hkr] at this
                      exact hnd.1 this
                rw [h1, h2]
              · have := hl k
                simp only [dlookup, if_neg (fun hh : k0 = k => h hh.symm)] at this
                exact this
          rw [hrest]

/-! ### initDict lemmas -/

theorem dlookup_initFold (kws : List Str) :
    ∀ (d0 : Dict) (k : Str),
      dlookup (kws.foldl (fun d kw => dupdate d kw []) d0) k =
        if k ∈ kws then some [] else dlookup d0 k := by
  induction kws with
  | nil => intro d0 k; simp
  | cons kw rest ih =>
      intro d0 k
      simp only [List.foldl_cons]
      rw [ih]
      by_cases hr : k ∈ rest
      · simp [hr]
      · simp only [if_neg hr, dlookup_dupdate, List.mem_cons]
        by_cases hk : k = kw
        · simp [hk]
        · simp [hk, hr]

theorem dlookup_initDict (kws : List Str) (k : Str) :
    dlookup (initDict kws) k = if k ∈ kws then some [] else none := by
  have := dlookup_initFold kws [] k
  simpa [initDict, dlookup] using this

theorem mem_dkeys_initDict (kws : List Str) (k : Str) :
    k ∈ dkeys (initDict kws) ↔ k ∈ kws := by
  rw [mem_dkeys_iff, dlookup_initDict]
  by_cases h : k ∈ kws <;> simp [h]

theorem nodup_dkeys_dupdate (d : Dict) (k : Str) (v : List Str)
    (h : (dkeys d).Nodup) : (dkeys (dupdate d k v)).Nodup := by
  by_cases hm : k ∈ dkeys d
  · rw [dkeys_dupdate_of_mem _ _ _ hm]; exact h
  · rw [dkeys_dupdate_of_not_mem _ _ _ hm]
    simp [List.nodup_append, h, hm]

theorem nodup_dkeys_initFold (kws : List Str) :
    ∀ (d0 : Dict), (dkeys d0).Nodup →
      (dkeys (kws.foldl (fun d kw => dupdate d kw []) d0)).Nodup := by
  induction kws with
  | nil => intro d0 h; simpa using h
  | cons kw rest ih =>
      intro d0 h
      simp only [List.foldl_cons]
      exact ih _ (nodup_dkeys_dupdate _ _ _ h)

theorem nodup_dkeys_initDict (kws : List Str) : (dkeys (initDict kws)).Nodup :=
  nodup_dkeys_initFold kws [] (by simp [dkeys])

/-! ### scan_files characterization -/

theorem scanOne_spec (p text : Str) (q : List (Str × Str)) :
    ∀ (d : Dict), (∀ pr ∈ q, pr.1 ∈ dkeys d) →
      ∃ d', scanOne p text q d = some d' ∧ dkeys d' = dkeys d ∧
        ∀ k, dlookup d' k = (dlookup d k).map
          (fun v => v ++ List.replicate
            (q.countP (fun pr => decide (pr.1 = k) && pyIn pr.2 text)) p) := by
  induction q with
  | nil =>
      intro d _
      refine ⟨d, rfl, rfl, ?_⟩
      intro k
      cases dlookup d k <;> simp
  | cons pr rest ih =>
      obtain ⟨kw, lkw⟩ := pr
      intro d hd
      have hkw : kw ∈ dkeys d := hd _ (List.mem_cons_self _ _)
      obtain ⟨v, hv⟩ : ∃ v, dlookup d kw = some v := by
        have hs := (mem_dkeys_iff d kw).mp hkw
        cases hq : dlookup d kw with
        | none => rw [hq] at hs; simp at hs
        | some v => exact ⟨v, rfl⟩
      simp only [scanOne]
      by_cases ht : pyIn lkw text = true
      · rw [if_pos ht, hv]
        have hkeys' : dkeys (dupdate d kw (v ++ [p])) = dkeys d :=
          dkeys_dupdate_of_mem _ _ _ hkw
        obtain ⟨d', h1, h2, h3⟩ := ih (dupdate d kw (v ++ [p])) (by
          intro pr hpr
          rw [hkeys']
          exact hd _ (List.mem_cons_of_mem _ hpr))
        refine ⟨d', h1, by rw [h2, hkeys'], ?_⟩
        intro k
        rw [h3 k, dlookup_dupdate]
        by_cases hk : k = kw
        · rw [if_pos hk, hk, hv]
          have hpred : (decide ((kw, lkw).1 = kw) && pyIn (kw, lkw).2 text) = true := by
            simp [ht]
          simp only [Option.map_some', Option.some.injEq, List.countP_cons, hpred]
          simp [List.append_assoc, ht, List.replicate_succ]
        · rw [if_neg hk]
          have hpred : (decide ((kw, lkw).1 = k) && pyIn (kw, lkw).2 text) = false := by
            have hd0 : decide (kw = k) = false := by
              simp only [decide_eq_false_iff_not]
              exact fun hh => hk hh.symm
            simp [hd0]
          simp only [List.countP_cons, hpred]
          simp
      · rw [if_neg ht]
        obtain ⟨d', h1, h2, h3⟩ :=
          ih d (fun pr hpr => hd pr (List.mem_cons_of_mem _ hpr))
        refine ⟨d', h1, h2, ?_⟩
        intro k
        rw [h3 k]
        have hpred : (decide ((kw, lkw).1 = k) && pyIn (kw, lkw).2 text) = false := by
          simp only [Bool.and_eq_false_iff]
          right
          simpa using ht
        simp only [List.countP_cons, hpred]
        simp

theorem countP_zip_lower (kws : List Str) (k : Str) (t : Str) :
    (kws.zip (kws.map strLower)).countP
        (fun pr => decide (pr.1 = k) && pyIn pr.2 t) =
      if pyIn (strLower k) t then occCount kws k else 0 := by
  induction kws with
  | nil => simp [occCount]
  | cons kw rest ih =>
      simp only [List.map_cons, List.zip_cons_cons, List.countP_cons, ih,
        occCount, List.countP_cons]
      by_cases hk : kw = k
      · subst hk
        by_cases hp : pyIn (strLower kw) t = true
        · simp [hp]
        · simp [hp]
      · have h1 : (decide ((kw, strLower kw).1 = k) && pyIn (kw, strLower kw).2 t) = false := by
          simp [hk]
        have h2 : decide (kw = k) = false := by simp [hk]
        simp only [h1, h2]
        by_cases hp : pyIn (strLower k) t = true <;> simp [hp]

theorem scanStep_none (readF : Str → Option Str) (kws lkws : List Str)
    (out : Dict) (p : Str) (hr : readF p = none) :
    scanStep readF kws lkws (some out) p = some out := by
  simp [scanStep, hr]

theorem scanStep_some (readF : Str → Option Str) (kws lkws : List Str)
    (out : Dict) (p : Str) (content : Str) (hr : readF p = some content) :
    scanStep readF kws lkws (some out) p =
      scanOne p (strLower content) (kws.zip lkws) out := by
  simp [scanStep, hr]

theorem scan_fold_spec (readF : Str → Option Str) (kws : List Str) (files : List Str) :
    ∀ (d0 : Dict), (∀ k ∈ kws, k ∈ dkeys d0) →
      ∃ d1,
        files.foldl (scanStep readF kws (kws.map strLower)) (some d0) = some d1 ∧
        dkeys d1 = dkeys d0 ∧
        ∀ k, dlookup d1 k =
          (dlookup d0 k).map (fun v => v ++ matchList readF kws files k) := by
  induction files with
  | nil =>
      intro d0 _
      refine ⟨d0, rfl, rfl, ?_⟩
      intro k
      cases dlookup d0 k <;> simp [matchList]
  | cons p rest ih =>
      intro d0 h
      simp only [List.foldl_cons]
      cases hr : readF p with
      | none =>
          rw [scanStep_none readF kws _ d0 p hr]
          obtain ⟨d1, h1, h2, h3⟩ := ih d0 h
          refine ⟨d1, h1, h2, ?_⟩
          intro k
          rw [h3 k]
          have hfm : fileMatches readF k p = false := by simp [fileMatches, hr]
          cases dlookup d0 k with
          | none => simp
          | some v => simp [matchList, List.flatMap_cons, hfm]
      | some content =>
          rw [scanStep_some readF kws _ d0 p content hr]
          obtain ⟨dmid, hm1, hm2, hm3⟩ :=
            scanOne_spec p (strLower content) (kws.zip (kws.map strLower)) d0
              (fun pr hpr => by
                obtain ⟨a, b⟩ := pr
                exact h _ (List.of_mem_zip hpr).1)
          rw [hm1]
          obtain ⟨d1, h1, h2, h3⟩ := ih dmid (fun k hk => by rw [hm2]; exact h k hk)
          refine ⟨d1, h1, by rw [h2, hm2], ?_⟩
          intro k
          rw [h3 k, hm3 k, countP_zip_lower, Option.map_map]
          have hfm : fileMatches readF k p = pyIn (strLower k) (strLower content) := by
            simp [fileMatches, hr]
          cases dlookup d0 k with
          | none => simp
          | some v =>
              simp only [Option.map_some', Function.comp_apply, Option.some.injEq]
              rw [List.append_assoc]
              congr 1
              simp only [matchList, List.flatMap_cons, hfm]
              congr 1
              by_cases hp : pyIn (strLower k) (strLower content) = true
              · simp [hp]
              · simp [hp]

/-- The full characterization of `scan_files`: it never raises, its result
has exactly the (first-occurrence-deduplicated) keyword list as keys, and
the list under each requested keyword is `matchList`. -/
theorem scan_files_spec (readF : Str → Option Str) (files : List Str)
    (kws : List Str) :
    ∃ d, scan_files readF files kws = some d ∧
      dkeys d = dkeys (initDict kws) ∧
      ∀ k, dlookup d k =
        if k ∈ kws then some (matchList readF kws files k) else none := by
  obtain ⟨d1, h1, h2, h3⟩ :=
    scan_fold_spec readF kws files (initDict kws)
      (fun k hk => (mem_dkeys_initDict kws k).mpr hk)
  refine ⟨d1, ?_, h2, ?_⟩
  · rw [scan_files]
    exact h1
  · intro k
    rw [h3 k, dlookup_initDict]
    by_cases hk : k ∈ kws
    · simp [hk]
    · simp [hk]

/-! ### merge and merge_into characterization -/

theorem merge_cons (a : Dict) (k0 : Str) (w0 : List Str)
    (rest : List (Str × List Str)) :
    merge a ((k0, w0) :: rest) =
      merge (dupdate a k0 (((dlookup a k0).getD []) ++ w0)) rest := by
  simp only [merge, List.foldl_cons]

theorem merge_spec (b : Dict) :
    ∀ (a : Dict), (dkeys b).Nodup → (∀ k, k ∈ dkeys b → k ∈ dkeys a) →
      dkeys (merge a b) = dkeys a ∧
      ∀ k, dlookup (merge a b) k =
        match dlookup b k with
        | none => dlookup a k
        | some w => (dlookup a k).map (fun v => v ++ w) := by
  induction b with
  | nil =>
      intro a _ _
      refine ⟨rfl, ?_⟩
      intro k
      simp [merge, dlookup]
  | cons kv rest ih =>
      obtain ⟨k0, w0⟩ := kv
      intro a hnd hsub
      have hk0 : k0 ∈ dkeys a := hsub _ (by simp [dkeys])
      obtain ⟨v0, hv0⟩ : ∃ v0, dlookup a k0 = some v0 := by
        have hs := (mem_dkeys_iff a k0).mp hk0
        cases hq : dlookup a k0 with
        | none => rw [hq] at hs; simp at hs
        | some v => exact ⟨v, rfl⟩
      simp only [dkeys, List.map_cons, List.nodup_cons] at hnd
      obtain ⟨hk0nr, hndr⟩ := hnd
      have hkeys' : dkeys (dupdate a k0 (v0 ++ w0)) = dkeys a :=
        dkeys_dupdate_of_mem _ _ _ hk0
      obtain ⟨ihk, ihl⟩ := ih (dupdate a k0 (v0 ++ w0)) hndr (by
        intro k hk
        rw [hkeys']
        exact hsub _ (by simp [dkeys]; right; simpa [dkeys] using hk))
      rw [merge_cons, hv0]
      simp only [Option.getD_some]
      refine ⟨by rw [ihk, hkeys'], ?_⟩
      intro k
      rw [ihl k]
      by_cases hk : k = k0
      · subst hk
        have hrest : dlookup rest k = none := by
          cases hq : dlookup rest k with
          | none => rfl
          | some v =>
              exfalso
              have : k ∈ dkeys rest := (mem_dkeys_iff rest k).mpr (by simp [hq])
              simp only [dkeys] at this
              exact hk0nr this
        rw [hrest]
        simp only [dlookup, if_pos rfl]
        rw [dlookup_dupdate, if_pos rfl, hv0]
        simp
      · have hne : ¬ k0 = k := fun hh => hk hh.symm
        simp only [dlookup, if_neg hne]
        rw [dlookup_dupdate, if_neg hk]

theorem mergeIntoStep_some (d : Dict) (kv : Str × List Str) (v : List Str)
    (hv : dlookup d kv.1 = some v) :
    mergeIntoStep (some d) kv = some (dupdate d kv.1 (v ++ kv.2)) := by
  simp [mergeIntoStep, hv]

theorem merge_into_cons (dst : Dict) (k0 : Str) (w0 : List Str)
    (rest : List (Str × List Str)) (v0 : List Str)
    (hv : dlookup dst k0 = some v0) :
    merge_into dst ((k0, w0) :: rest) =
      merge_into (dupdate dst k0 (v0 ++ w0)) rest := by
  simp only [merge_into, List.foldl_cons]
  rw [mergeIntoStep_some dst (k0, w0) v0 hv]

theorem merge_into_isSome (src : Dict) :
    ∀ (dst : Dict), (∀ k, k ∈ dkeys src → k ∈ dkeys dst) →
      (merge_into dst src).isSome = true := by
  induction src with
  | nil => intro dst _; simp [merge_into]
  | cons kv rest ih =>
      obtain ⟨k0, w0⟩ := kv
      intro dst hsub
      have hk0 : k0 ∈ dkeys dst := hsub _ (by simp [dkeys])
      obtain ⟨v0, hv0⟩ : ∃ v0, dlookup dst k0 = some v0 := by
        have hs := (mem_dkeys_iff dst k0).mp hk0
        cases hq : dlookup dst k0 with
        | none => rw [hq] at hs; simp at hs
        | some v => exact ⟨v, rfl⟩
      rw [merge_into_cons dst k0 w0 rest v0 hv0]
      exact ih _ (by
        intro k hk
        rw [dkeys_dupdate_of_mem _ _ _ hk0]
        exact hsub _ (by simp [dkeys]; right; simpa [dkeys] using hk))

theorem merge_into_spec (src : Dict) :
    ∀ (dst : Dict), (dkeys src).Nodup → (∀ k, k ∈ dkeys src → k ∈ dkeys dst) →
      ∃ c, merge_into dst src = some c ∧ dkeys c = dkeys dst ∧
        ∀ k, dlookup c k =
          match dlookup src k with
          | none => dlookup dst k
          | some w => (dlookup dst k).map (fun v => v ++ w) := by
  induction src with
  | nil =>
      intro dst _ _
      refine ⟨dst, rfl, rfl, ?_⟩
      intro k
      simp [dlookup]
  | cons kv rest ih =>
      obtain ⟨k0, w0⟩ := kv
      intro dst hnd hsub
      have hk0 : k0 ∈ dkeys dst := hsub _ (by simp [dkeys])
      obtain ⟨v0, hv0⟩ : ∃ v0, dlookup dst k0 = some v0 := by
        have hs := (mem_dkeys_iff dst k0).mp hk0
        cases hq : dlookup dst k0 with
        | none => rw [hq] at hs; simp at hs
        | some v => exact ⟨v, rfl⟩
      simp only [dkeys, List.map_cons, List.nodup_cons] at hnd
      obtain ⟨hk0nr, hndr⟩ := hnd
      have hkeys' : dkeys (dupdate dst k0 (v0 ++ w0)) = dkeys dst :=
        dkeys_dupdate_of_mem _ _ _ hk0
      obtain ⟨c, hc, ihk, ihl⟩ := ih (dupdate dst k0 (v0 ++ w0)) hndr (by
        intro k hk
        rw [hkeys']
        exact hsub _ (by simp [dkeys]; right; simpa [dkeys] using hk))
      rw [merge_into_cons dst k0 w0 rest v0 hv0]
      refine ⟨c, hc, by rw [ihk, hkeys'], ?_⟩
      intro k
      rw [ihl k]
      by_cases hk : k = k0
      · subst hk
        have hrest : dlookup rest k = none := by
          cases hq : dlookup rest k with
          | none => rfl
          | some v =>
              exfalso
              have : k ∈ dkeys rest := (mem_dkeys_iff rest k).mpr (by simp [hq])
              simp only [dkeys] at this
              exact hk0nr this
        rw [hrest]
        simp only [dlookup, if_pos rfl]
        rw [dlookup_dupdate, if_pos rfl, hv0]
        simp
      · have hne : ¬ k0 = k := fun hh => hk hh.symm
        simp only [dlookup, if_neg hne]
        rw [dlookup_dupdate, if_neg hk]

/-! ### chunked / pySlices characterization -/

theorem pySlices_length (seq : List Str) (k : Nat) :
    (pySlices seq k).length = (seq.length + k - 1) / k := by
  simp [pySlices]

theorem ceil_div_succ (L k : Nat) (hL : 1 ≤ L) (hk : 1 ≤ k) :
    (L + k - 1) / k = (L - 1) / k + 1 := by
  have h1 : L + k - 1 = (L - 1) + k := by omega
  rw [h1, Nat.add_div_right _ (by omega)]

theorem ceil_div_drop (L k : Nat) (hL : 1 ≤ L) (hk : 1 ≤ k) :
    (L - k + k - 1) / k = (L - 1) / k := by
  by_cases h : L ≤ k
  · have h1 : L - k = 0 := by omega
    rw [h1]
    have h2 : (0 + k - 1) / k = 0 := Nat.div_eq_of_lt (by omega)
    rw [h2]
    exact (Nat.div_eq_of_lt (by omega)).symm
  · have h1 : L - k + k - 1 = (L - k - 1) + k := by omega
    rw [h1, Nat.add_div_right _ (by omega)]
    have h2 : L - 1 = (L - k - 1) + k := by omega
    rw [h2, Nat.add_div_right _ (by omega)]

theorem pySlices_cons (seq : List Str) (k : Nat) (hk : 1 ≤ k) (hne : seq ≠ []) :
    pySlices seq k = seq.take k :: pySlices (seq.drop k) k := by
  have hL : 1 ≤ seq.length := List.length_pos.mpr hne
  unfold pySlices
  rw [List.length_drop]
  rw [ceil_div_succ _ _ hL hk, ceil_div_drop _ _ hL hk]
  rw [List.range_succ_eq_map]
  simp only [List.map_cons, List.map_map]
  congr 1
  · simp
  · have hfun :
        ((fun i => (seq.drop (i * k)).take k) ∘ Nat.succ) =
          (fun i => ((seq.drop k).drop (i * k)).take k) := by
      funext i
      simp only [Function.comp_apply]
      rw [List.drop_drop]
      congr 2
      rw [Nat.succ_mul]
      omega
    rw [hfun]

theorem pySlices_flatten_aux (k : Nat) (hk : 1 ≤ k) :
    ∀ (n : Nat) (seq : List Str), seq.length ≤ n → (pySlices seq k).flatten = seq := by
  intro n
  induction n with
  | zero =>
      intro seq h
      have hnil : seq = [] := List.length_eq_zero.mp (Nat.le_zero.mp h)
      subst hnil
      have h0 : ((List.length ([] : List Str)) + k - 1) / k = 0 := by
        simp only [List.length_nil]
        exact Nat.div_eq_of_lt (by omega)
      simp [pySlices, h0]
  | succ n ih =>
      intro seq h
      by_cases hne : seq = []
      · subst hne
        have h0 : ((List.length ([] : List Str)) + k - 1) / k = 0 := by
          simp only [List.length_nil]
          exact Nat.div_eq_of_lt (by omega)
        simp [pySlices, h0]
      · rw [pySlices_cons seq k hk hne]
        simp only [List.flatten_cons]
        rw [ih (seq.drop k) (by
          rw [List.length_drop]
          have h1 : 1 ≤ seq.length := List.length_pos.mpr hne
          omega)]
        exact List.take_append_drop k seq

theorem pySlices_flatten (seq : List Str) (k : Nat) (hk : 1 ≤ k) :
    (pySlices seq k).flatten = seq :=
  pySlices_flatten_aux k hk seq.length seq le_rfl

/-- The chunk size that `chunked` computes. -/
def chunkSize (L : Nat) (n : Int) : Nat :=
  let m : Nat := if n ≤ 0 then 1 else n.toNat
  max 1 (L / m + (if L % m ≠ 0 then 1 else 0))

theorem chunked_eq_pySlices (seq : List Str) (n : Int) :
    chunked seq n = pySlices seq (chunkSize seq.length n) := rfl

theorem chunkSize_pos (L : Nat) (n : Int) : 1 ≤ chunkSize L n :=
  le_max_left _ _

/-- Every chunking concatenates back to the input list, whatever the
requested worker count. -/
theorem chunked_flatten (seq : List Str) (n : Int) :
    (chunked seq n).flatten = seq := by
  rw [chunked_eq_pySlices]
  exact pySlices_flatten seq _ (chunkSize_pos _ _)

/-- For a nonempty list the computed chunk size is exactly
`ceil(len / m)` where `m` is the substituted worker count. -/
theorem code_chunk_size_eq (L M : Nat) (hL : 1 ≤ L) (hM : 1 ≤ M) :
    max 1 (L / M + (if L % M ≠ 0 then 1 else 0)) = (L + M - 1) / M := by
  have hdm := Nat.div_add_mod L M
  have hmlt : L % M < M := Nat.mod_lt _ (by omega)
  rw [ceil_div_succ L M hL hM]
  by_cases hr : L % M = 0
  · have hq1 : 1 ≤ L / M := by
      rcases Nat.eq_zero_or_pos (L / M) with h | h
      · rw [h, Nat.mul_zero, hr] at hdm; omega
      · exact h
    have hprod : M * (L / M) = M * (L / M - 1) + M := by
      have h3 : L / M = (L / M - 1) + 1 := by omega
      calc M * (L / M) = M * ((L / M - 1) + 1) := by rw [← h3]
        _ = M * (L / M - 1) + M := by ring
    have hL1 : L - 1 = (M - 1) + M * (L / M - 1) := by
      rw [hr] at hdm
      omega
    have hdiv : (L - 1) / M = L / M - 1 := by
      rw [hL1, Nat.add_mul_div_left _ _ (by omega : 0 < M),
        Nat.div_eq_of_lt (by omega)]
      omega
    rw [if_neg (by simp [hr]), hdiv]
    omega
  · have hL1 : L - 1 = (L % M - 1) + M * (L / M) := by omega
    have hdiv : (L - 1) / M = L / M := by
      rw [hL1, Nat.add_mul_div_left _ _ (by omega : 0 < M),
        Nat.div_eq_of_lt (by omega)]
      omega
    rw [if_pos (by simpa using hr), hdiv]
    exact Nat.max_eq_right (Nat.le_add_left 1 (L / M))

theorem pySlices_getElem (seq : List Str) (k : Nat) (i : Nat)
    (h : i < (pySlices seq k).length) :
    (pySlices seq k)[i]? = some ((seq.drop (i * k)).take k) := by
  have hi : i < (seq.length + k - 1) / k := by
    rw [← pySlices_length seq k]; exact h
  unfold pySlices
  rw [List.getElem?_map, List.getElem?_range hi]
  rfl

/-! ### Driver pipelines: merging per-chunk scans -/

theorem multi_fold_spec (readF : Str → Option Str) (kws : List Str)
    (cs : List (List Str)) :
    ∀ (a : Dict) (A : Str → List Str),
      dkeys a = dkeys (initDict kws) →
      (∀ k, dlookup a k = if k ∈ kws then some (A k) else none) →
      ∃ d, cs.foldl (mpStep readF kws) (some a) = some d ∧
        dkeys d = dkeys (initDict kws) ∧
        ∀ k, dlookup d k =
          if k ∈ kws then some (A k ++ matchList readF kws cs.flatten k)
          else none := by
  induction cs with
  | nil =>
      intro a A ha hl
      refine ⟨a, rfl, ha, ?_⟩
      intro k
      rw [hl k]
      by_cases hk : k ∈ kws
      · simp [hk, matchList]
      · simp [hk]
  | cons c rest ih =>
      intro a A ha hl
      obtain ⟨part, hp, hpk, hpl⟩ := scan_files_spec readF c kws
      simp only [List.foldl_cons, mpStep, hp, Option.some_bind, Option.map_some']
      obtain ⟨hmk, hml⟩ := merge_spec part a
        (by rw [hpk]; exact nodup_dkeys_initDict kws)
        (by intro k hk; rw [hpk] at hk; rw [ha]; exact hk)
      obtain ⟨d, hd, hdk, hdl⟩ := ih (merge a part)
        (fun k => A k ++ matchList readF kws c k)
        (by rw [hmk, ha])
        (by
          intro k
          rw [hml k, hpl k]
          by_cases hk : k ∈ kws
          · rw [if_pos hk, hl k, if_pos hk, if_pos hk]
            simp
          · rw [if_neg hk, hl k, if_neg hk, if_neg hk])
      refine ⟨d, hd, hdk, ?_⟩
      intro k
      rw [hdl k]
      by_cases hk : k ∈ kws
      · rw [if_pos hk, if_pos hk]
        simp [List.flatten_cons, matchList, List.flatMap_append, List.append_assoc]
      · rw [if_neg hk, if_neg hk]

theorem th_fold_spec (readF : Str → Option Str) (kws : List Str)
    (cs : List (List Str)) :
    ∀ (a : Dict) (A : Str → List Str),
      dkeys a = dkeys (initDict kws) →
      (∀ k, dlookup a k = if k ∈ kws then some (A k) else none) →
      ∃ d, cs.foldl (thStep readF kws) (some a) = some d ∧
        dkeys d = dkeys (initDict kws) ∧
        ∀ k, dlookup d k =
          if k ∈ kws then some (A k ++ matchList readF kws cs.flatten k)
          else none := by
  induction cs with
  | nil =>
      intro a A ha hl
      refine ⟨a, rfl, ha, ?_⟩
      intro k
      rw [hl k]
      by_cases hk : k ∈ kws
      · simp [hk, matchList]
      · simp [hk]
  | cons c rest ih =>
      intro a A ha hl
      obtain ⟨part, hp, hpk, hpl⟩ := scan_files_spec readF c kws
      obtain ⟨m, hm, hmk, hml⟩ := merge_into_spec part a
        (by rw [hpk]; exact nodup_dkeys_initDict kws)
        (by intro k hk; rw [hpk] at hk; rw [ha]; exact hk)
      simp only [List.foldl_cons, thStep, hp, Option.some_bind, hm]
      obtain ⟨d, hd, hdk, hdl⟩ := ih m
        (fun k => A k ++ matchList readF kws c k)
        (by rw [hmk, ha])
        (by
          intro k
          rw [hml k, hpl k]
          by_cases hk : k ∈ kws
          · rw [if_pos hk, hl k, if_pos hk, if_pos hk]
            simp
          · rw [if_neg hk, hl k, if_neg hk, if_neg hk])
      refine ⟨d, hd, hdk, ?_⟩
      intro k
      rw [hdl k]
      by_cases hk : k ∈ kws
      · rw [if_pos hk, if_pos hk]
        simp [List.flatten_cons, matchList, List.flatMap_append, List.append_assoc]
      · rw [if_neg hk, if_neg hk]

/-- The multiprocessing driver computes exactly `scan_files` of the whole
file list: the chunking and per-chunk merging change nothing. -/
theorem run_multiprocessing_eq_scan (readF : Str → Option Str)
    (files : List Str) (kws : List Str) (n : Int) :
    run_multiprocessing readF files kws n = scan_files readF files kws := by
  obtain ⟨d, hd, hdk, hdl⟩ :=
    multi_fold_spec readF kws (chunked files n) (initDict kws) (fun _ => [])
      rfl
      (by intro k; rw [dlookup_initDict])
  obtain ⟨s, hs, hsk, hsl⟩ := scan_files_spec readF files kws
  rw [run_multiprocessing, hd, hs]
  congr 1
  apply dict_ext d s (by rw [hdk, hsk]) (by rw [hdk]; exact nodup_dkeys_initDict kws)
  intro k
  rw [hdl k, hsl k, chunked_flatten]
  by_cases hk : k ∈ kws
  · rw [if_pos hk, if_pos hk]
    simp
  · rw [if_neg hk, if_neg hk]

/-- The threading driver computes exactly `scan_files` of the whole file
list as well. -/
theorem run_threading_eq_scan (readF : Str → Option Str)
    (files : List Str) (kws : List Str) (n : Int) :
    run_threading readF files kws n = scan_files readF files kws := by
  obtain ⟨d, hd, hdk, hdl⟩ :=
    th_fold_spec readF kws (chunked files n) (initDict kws) (fun _ => [])
      rfl
      (by intro k; rw [dlookup_initDict])
  obtain ⟨s, hs, hsk, hsl⟩ := scan_files_spec readF files kws
  rw [run_threading, hd, hs]
  congr 1
  apply dict_ext d s (by rw [hdk, hsk]) (by rw [hdk]; exact nodup_dkeys_initDict kws)
  intro k
  rw [hdl k, hsl k, chunked_flatten]
  by_cases hk : k ∈ kws
  · rw [if_pos hk, if_pos hk]
    simp
  · rw [if_neg hk, if_neg hk]

/-! ### matchList membership and counting -/

theorem fileMatches_iff (readF : Str → Option Str) (k f : Str) :
    fileMatches readF k f = true ↔
      ∃ c, readF f = some c ∧ pyIn (strLower k) (strLower c) = true := by
  cases hr : readF f with
  | none => simp [fileMatches, hr]
  | some c => simp [fileMatches, hr]

theorem matchList_cons (readF : Str → Option Str) (kws : List Str)
    (p : Str) (rest : List Str) (k : Str) :
    matchList readF kws (p :: rest) k =
      (if fileMatches readF k p then List.replicate (occCount kws k) p else []) ++
        matchList readF kws rest k := by
  simp only [matchList, List.flatMap_cons]

theorem occCount_pos (kws : List Str) (k : Str) (hk : k ∈ kws) :
    0 < occCount kws k := by
  rw [occCount, List.countP_pos]
  exact ⟨k, hk, by simp⟩

theorem mem_matchList (readF : Str → Option Str) (kws : List Str)
    (k f : Str) (hk : k ∈ kws) :
    ∀ files : List Str,
      (f ∈ matchList readF kws files k ↔
        f ∈ files ∧ fileMatches readF k f = true) := by
  have hocc : occCount kws k ≠ 0 := by
    have := occCount_pos kws k hk
    omega
  intro files
  induction files with
  | nil => simp [matchList]
  | cons p rest ih =>
      rw [matchList_cons, List.mem_append]
      constructor
      · rintro (h | h)
        · by_cases hm : fileMatches readF k p = true
          · rw [if_pos hm] at h
            have hfp : f = p := List.eq_of_mem_replicate h
            subst hfp
            exact ⟨List.mem_cons_self _ _, hm⟩
          · rw [if_neg hm] at h
            simp at h
        · obtain ⟨h1, h2⟩ := ih.mp h
          exact ⟨List.mem_cons_of_mem _ h1, h2⟩
      · rintro ⟨h1, h2⟩
        rcases List.mem_cons.mp h1 with hfp | hfr
        · subst hfp
          left
          rw [if_pos h2]
          exact List.mem_replicate.mpr ⟨hocc, rfl⟩
        · right
          exact ih.mpr ⟨hfr, h2⟩

theorem mem_of_mem_matchList (readF : Str → Option Str) (kws files : List Str)
    (k x : Str) (h : x ∈ matchList readF kws files k) : x ∈ files := by
  rw [matchList, List.mem_flatMap] at h
  obtain ⟨p, hp, hx⟩ := h
  by_cases hm : fileMatches readF k p = true
  · rw [if_pos hm] at hx
    rw [List.eq_of_mem_replicate hx]
    exact hp
  · rw [if_neg hm] at hx
    simp at hx

theorem countP_replicate_eq (p : Str → Bool) (n : Nat) (a : Str) :
    (List.replicate n a).countP p = if p a then n else 0 := by
  induction n with
  | zero => simp
  | succ n ih =>
      rw [List.replicate_succ, List.countP_cons, ih]
      by_cases h : p a = true
      · simp [h]
      · simp [h]

theorem countP_matchList_not_mem (readF : Str → Option Str)
    (kws files : List Str) (k f : Str) (hf : f ∉ files) :
    (matchList readF kws files k).countP (fun x => decide (x = f)) = 0 := by
  rw [List.countP_eq_zero]
  intro a ha
  have haf : a ∈ files := mem_of_mem_matchList readF kws files k a ha
  simp only [decide_eq_true_eq]
  intro hd
  exact hf (hd ▸ haf)

theorem countP_matchList (readF : Str → Option Str) (kws : List Str)
    (k f : Str) (hm : fileMatches readF k f = true) :
    ∀ files : List Str, files.Nodup → f ∈ files →
      (matchList readF kws files k).countP (fun x => decide (x = f)) =
        occCount kws k := by
  intro files
  induction files with
  | nil => intro _ hf; simp at hf
  | cons p rest ih =>
      intro hnd hf
      rw [List.nodup_cons] at hnd
      rw [matchList_cons, List.countP_append]
      by_cases hfp : f = p
      · subst hfp
        rw [if_pos hm, countP_replicate_eq]
        rw [countP_matchList_not_mem readF kws rest k f hnd.1]
        simp
      · have hfr : f ∈ rest := by
          rcases List.mem_cons.mp hf with h | h
          · exact absurd h hfp
          · exact h
        rw [ih hnd.2 hfr]
        have hhead :
            ((if fileMatches readF k p then List.replicate (occCount kws k) p
              else []).countP (fun x => decide (x = f))) = 0 := by
          by_cases hmp : fileMatches readF k p = true
          · rw [if_pos hmp, countP_replicate_eq]
            have hpf : decide (p = f) = false := by
              simp only [decide_eq_false_iff_not]
              exact fun hh => hfp hh.symm
            simp [hpf]
          · rw [if_neg hmp]
            simp
        rw [hhead]
        omega

theorem countP_eq_one_of_nodup (k : Str) :
    ∀ (l : List Str), l.Nodup → k ∈ l →
      l.countP (fun x => decide (x = k)) = 1 := by
  intro l
  induction l with
  | nil => intro _ hk; simp at hk
  | cons a rest ih =>
      intro hnd hk
      rw [List.nodup_cons] at hnd
      rw [List.countP_cons]
      by_cases hak : a = k
      · subst hak
        have h0 : rest.countP (fun x => decide (x = a)) = 0 := by
          rw [List.countP_eq_zero]
          intro b hb
          simp only [decide_eq_true_eq]
          intro hba
          exact hnd.1 (hba ▸ hb)
        simp [h0]
      · have hkr : k ∈ rest := by
          rcases List.mem_cons.mp hk with h | h
          · exact absurd h.symm hak
          · exact h
        have hd0 : decide (a = k) = false := by
          simp only [decide_eq_false_iff_not]
          exact hak
        rw [ih hnd.2 hkr, hd0]
        simp

/-! ### Claim theorems -/

theorem chunked_nil (W : Int) : chunked [] W = [] := by
  rw [chunked_eq_pySlices]
  have hpos := chunkSize_pos (List.length ([] : List Str)) W
  unfold pySlices
  have h0 : (List.length ([] : List Str) + chunkSize (List.length ([] : List Str)) W - 1) /
      chunkSize (List.length ([] : List Str)) W = 0 := by
    apply Nat.div_eq_of_lt
    simp only [List.length_nil] at hpos ⊢
    omega
  rw [h0]
  simp

/-- C1: for every file list, keyword list and worker count, a file `f` of
the list appears in the result list for a requested keyword `k` — in the
`scan_files` result, and hence in both drivers' merged AggregateResult —
iff reading `f` succeeded and the lower-cased content of `f` contains the
lower-cased form of `k` as a substring. -/
theorem claim_C1_membership (readF : Str → Option Str) (files kws : List Str)
    (n : Int) (k f : Str) (hk : k ∈ kws) (hf : f ∈ files) :
    (∀ d L, scan_files readF files kws = some d → dlookup d k = some L →
      (f ∈ L ↔ ∃ c, readF f = some c ∧ pyIn (strLower k) (strLower c) = true)) ∧
    (∀ d L, run_multiprocessing readF files kws n = some d →
      dlookup d k = some L →
      (f ∈ L ↔ ∃ c, readF f = some c ∧ pyIn (strLower k) (strLower c) = true)) ∧
    (∀ d L, run_threading readF files kws n = some d → dlookup d k = some L →
      (f ∈ L ↔ ∃ c, readF f = some c ∧ pyIn (strLower k) (strLower c) = true)) := by
  obtain ⟨s, hs, hsk, hsl⟩ := scan_files_spec readF files kws
  have hcore : ∀ d L, scan_files readF files kws = some d → dlookup d k = some L →
      (f ∈ L ↔ ∃ c, readF f = some c ∧ pyIn (strLower k) (strLower c) = true) := by
    intro d L hd hL
    rw [hs] at hd
    have hds : s = d := Option.some.inj hd
    subst hds
    rw [hsl k, if_pos hk] at hL
    have hLm : matchList readF kws files k = L := Option.some.inj hL
    subst hLm
    rw [mem_matchList readF kws k f hk files, ← fileMatches_iff]
    simp [hf]
  refine ⟨hcore, ?_, ?_⟩
  · intro d L hd hL
    apply hcore d L ?_ hL
    rw [← run_multiprocessing_eq_scan readF files kws n]
    exact hd
  · intro d L hd hL
    apply hcore d L ?_ hL
    rw [← run_threading_eq_scan readF files kws n]
    exact hd

/-- C2: for worker counts at least 1 the merged per-chunk results do not
depend on the worker count, and equal `scan_files` of the whole list, in
both variants. -/
theorem claim_C2_worker_invariance (readF : Str → Option Str)
    (files kws : List Str) (W1 W2 : Int) (h1 : 1 ≤ W1) (h2 : 1 ≤ W2) :
    run_multiprocessing readF files kws W1 = run_multiprocessing readF files kws W2 ∧
    run_threading readF files kws W1 = run_threading readF files kws W2 ∧
    run_multiprocessing readF files kws W1 = scan_files readF files kws := by
  refine ⟨?_, ?_, run_multiprocessing_eq_scan readF files kws W1⟩
  · rw [run_multiprocessing_eq_scan, run_multiprocessing_eq_scan]
  · rw [run_threading_eq_scan, run_threading_eq_scan]

/-- C3: both drivers always produce a result whose key set is exactly the
set of requested keywords — every requested keyword is a key (even with an
empty match list, e.g. on an empty directory) and no other key occurs. -/
theorem claim_C3_key_set (readF : Str → Option Str) (files kws : List Str)
    (n : Int) (k : Str) :
    (run_multiprocessing readF files kws n).isSome = true ∧
    (run_threading readF files kws n).isSome = true ∧
    (∀ d, run_multiprocessing readF files kws n = some d →
      (k ∈ dkeys d ↔ k ∈ kws)) ∧
    (∀ d, run_threading readF files kws n = some d →
      (k ∈ dkeys d ↔ k ∈ kws)) := by
  obtain ⟨s, hs, hsk, hsl⟩ := scan_files_spec readF files kws
  have hm := run_multiprocessing_eq_scan readF files kws n
  have ht := run_threading_eq_scan readF files kws n
  refine ⟨by rw [hm, hs]; rfl, by rw [ht, hs]; rfl, ?_, ?_⟩
  · intro d hd
    rw [hm, hs] at hd
    have hds : s = d := Option.some.inj hd
    subst hds
    rw [hsk, mem_dkeys_initDict]
  · intro d hd
    rw [ht, hs] at hd
    have hds : s = d := Option.some.inj hd
    subst hds
    rw [hsk, mem_dkeys_initDict]

/-- C4: for every worker count at least 1 the chunks concatenate back to
the full file list — a total, non-overlapping cover: no file is assigned
twice and none is omitted. -/
theorem claim_C4_partition_cover (seq : List Str) (W : Int) (hW : 1 ≤ W) :
    (chunked seq W).flatten = seq :=
  chunked_flatten seq W

/-- C5: `chunked` uses chunk size `K = ceil(len / M)` (with `M` the
positive default when `W ≤ 0`), emits consecutive slices of size `K` with
only the final chunk possibly shorter, emits zero chunks on an empty
list, and never emits more than `W` chunks when `W ≥ 1`. -/
theorem claim_C5_partitioner_contract (seq : List Str) (W : Int) (M K : Nat)
    (hM : M = if W ≤ 0 then 1 else W.toNat)
    (hK : K = (seq.length + M - 1) / M) :
    (seq = [] → chunked seq W = []) ∧
    (seq ≠ [] →
      (chunked seq W).length = (seq.length + K - 1) / K ∧
      (∀ i, i < (chunked seq W).length →
        (chunked seq W)[i]? = some ((seq.drop (i * K)).take K)) ∧
      (∀ i, i + 1 < (chunked seq W).length →
        ((seq.drop (i * K)).take K).length = K) ∧
      (∀ c, c ∈ chunked seq W → c.length ≤ K ∧ c ≠ [])) ∧
    (1 ≤ W → (chunked seq W).length ≤ W.toNat) := by
  have hM1 : 1 ≤ M := by
    rw [hM]
    split
    · exact le_rfl
    · rename_i h
      omega
  have hcs : chunkSize seq.length W =
      max 1 (seq.length / M + (if seq.length % M ≠ 0 then 1 else 0)) := by
    rw [chunkSize, ← hM]
  refine ⟨?_, ?_, ?_⟩
  · intro hnil
    subst hnil
    exact chunked_nil W
  · intro hne
    have hL : 1 ≤ seq.length := List.length_pos.mpr hne
    have hkK : chunkSize seq.length W = K := by
      rw [hcs, code_chunk_size_eq seq.length M hL hM1, ← hK]
    have hKpos : 1 ≤ K := by rw [← hkK]; exact chunkSize_pos _ _
    have hlen : (chunked seq W).length = (seq.length + K - 1) / K := by
      rw [chunked_eq_pySlices, hkK, pySlices_length]
    refine ⟨hlen, ?_, ?_, ?_⟩
    · intro i hi
      rw [chunked_eq_pySlices, hkK] at hi ⊢
      exact pySlices_getElem seq K i hi
    · intro i hi
      rw [hlen, ceil_div_succ _ _ hL hKpos] at hi
      have h2 : (i + 1) * K ≤ seq.length - 1 :=
        (Nat.le_div_iff_mul_le (by omega)).mp (by omega)
      rw [List.length_take, List.length_drop]
      rw [Nat.succ_mul] at h2
      omega
    · intro c hc
      rw [chunked_eq_pySlices, hkK] at hc
      unfold pySlices at hc
      rw [List.mem_map] at hc
      obtain ⟨i, hi, hceq⟩ := hc
      rw [List.mem_range] at hi
      subst hceq
      constructor
      · rw [List.length_take]
        exact min_le_left _ _
      · rw [ceil_div_succ _ _ hL hKpos] at hi
        have h3 : i * K ≤ seq.length - 1 :=
          (Nat.le_div_iff_mul_le (by omega)).mp (by omega)
        have h4 : 0 < ((seq.drop (i * K)).take K).length := by
          rw [List.length_take, List.length_drop]
          omega
        exact List.ne_nil_of_length_pos h4
  · intro hW
    have hMW : M = W.toNat := by
      rw [hM, if_neg (by omega)]
    by_cases hne : seq = []
    · subst hne
      rw [chunked_nil]
      simp
    · have hL : 1 ≤ seq.length := List.length_pos.mpr hne
      have hkK : chunkSize seq.length W = K := by
        rw [hcs, code_chunk_size_eq seq.length M hL hM1, ← hK]
      have hKpos : 1 ≤ K := by rw [← hkK]; exact chunkSize_pos _ _
      have hlen : (chunked seq W).length = (seq.length - 1) / K + 1 := by
        rw [chunked_eq_pySlices, hkK, pySlices_length, ceil_div_succ _ _ hL hKpos]
      rw [hlen, ← hMW]
      have hKq : K = (seq.length - 1) / M + 1 := by
        rw [hK, ceil_div_succ _ _ hL hM1]
      have hdm := Nat.div_add_mod (seq.length - 1) M
      have hmod : (seq.length - 1) % M < M := Nat.mod_lt _ (by omega)
      generalize hq : (seq.length - 1) / M = q at hdm hKq
      generalize hr : (seq.length - 1) % M = r at hdm hmod
      have hMK : M * K = M * q + M := by rw [hKq]; ring
      have hlt : seq.length - 1 < M * K := by omega
      have hdiv : (seq.length - 1) / K < M :=
        (Nat.div_lt_iff_lt_mul (by omega)).mpr hlt
      omega

/-- C6: for the same directory contents, keyword list and worker count the
threading variant and the multiprocessing variant produce the same
result — here proved as on-the-nose equality of the merged dictionaries. -/
theorem claim_C6_two_variants_agree (readF : Str → Option Str)
    (files kws : List Str) (n : Int) :
    run_multiprocessing readF files kws n = run_threading readF files kws n := by
  rw [run_multiprocessing_eq_scan, run_threading_eq_scan]

/-- C7: if reading one file fails, `scan_files` silently skips it: the
scan still succeeds and returns exactly what it would have returned on the
list with that file removed — the other files of the chunk are processed
unchanged and no error reaches the caller. -/
theorem claim_C7_unreadable_file_skipped (readF : Str → Option Str)
    (kws : List Str) (f : Str) (xs ys : List Str) (hf : readF f = none) :
    (scan_files readF (xs ++ f :: ys) kws).isSome = true ∧
    scan_files readF (xs ++ f :: ys) kws = scan_files readF (xs ++ ys) kws := by
  obtain ⟨d1, h1, h1k, h1l⟩ := scan_files_spec readF (xs ++ f :: ys) kws
  obtain ⟨d2, h2, h2k, h2l⟩ := scan_files_spec readF (xs ++ ys) kws
  have hd : d1 = d2 := by
    apply dict_ext _ _ (by rw [h1k, h2k])
      (by rw [h1k]; exact nodup_dkeys_initDict kws)
    intro k
    rw [h1l k, h2l k]
    by_cases hk : k ∈ kws
    · rw [if_pos hk, if_pos hk]
      have hfm : fileMatches readF k f = false := by simp [fileMatches, hf]
      simp [matchList, List.flatMap_append, List.flatMap_cons, hfm]
    · rw [if_neg hk, if_neg hk]
  rw [h1, h2, hd]
  exact ⟨rfl, rfl⟩

/-- C8 counterexample: for a root that does not exist, CPython's
`Path.glob` silently yields no entries, so `main` runs the normal pipeline
on an empty file list and prints the all-empty result — it does not raise
an IOError-class condition and does not exit with a non-zero status. -/
theorem claim_C8_counterexample :
    main_search (fun _ => []) (fun _ => none) ['n', 'o'] [['x']] 4 =
      some [(['x'], [])] := by decide

/-- C8 amended: when the root path does not exist or is not a directory,
enumeration yields the empty file list and `main` terminates normally,
printing a result that maps every requested keyword to an empty list. -/
theorem claim_C8_amended (glob : Str → List Str) (readF : Str → Option Str)
    (root : Str) (kws : List Str) (n : Int) (hroot : glob root = []) :
    main_search glob readF root kws n = some (initDict kws) := by
  rw [main_search, hroot, run_multiprocessing_eq_scan]
  rfl

/-- C9: a keyword occurring twice in the keyword list does not make
`scan_files` fail; the result has a single key for it, and each (distinct)
matching file's path is appended once per occurrence, so it appears twice
in that key's list. -/
theorem claim_C9_duplicate_keywords (readF : Str → Option Str)
    (files kws : List Str) (k : Str) (hocc : occCount kws k = 2)
    (hnd : files.Nodup) :
    (scan_files readF files kws).isSome = true ∧
    (∀ d, scan_files readF files kws = some d →
      (dkeys d).countP (fun x => decide (x = k)) = 1 ∧
      ∀ L f, dlookup d k = some L → f ∈ files → fileMatches readF k f = true →
        L.countP (fun x => decide (x = f)) = 2) := by
  have hk : k ∈ kws := by
    have h1 : 0 < occCount kws k := by omega
    rw [occCount, List.countP_pos] at h1
    obtain ⟨x, hx, hpx⟩ := h1
    simp only [decide_eq_true_eq] at hpx
    exact hpx ▸ hx
  obtain ⟨s, hs, hsk, hsl⟩ := scan_files_spec readF files kws
  refine ⟨by rw [hs]; rfl, ?_⟩
  intro d hd
  rw [hs] at hd
  have hds : s = d := Option.some.inj hd
  subst hds
  constructor
  · rw [hsk]
    exact countP_eq_one_of_nodup k (dkeys (initDict kws))
      (nodup_dkeys_initDict kws) ((mem_dkeys_initDict kws k).mpr hk)
  · intro L f hL hf hm
    rw [hsl k, if_pos hk] at hL
    have hLm : matchList readF kws files k = L := Option.some.inj hL
    subst hLm
    rw [countP_matchList readF kws k f hm files hnd hf, hocc]

/-- C10: `merge_into` indexes `dst[k]` without a guard, but its KeyError
branch is unreachable in the program: every PartialResult of `scan_files`
has exactly the requested keywords as keys — the key set of the
pre-populated shared dict — so the merge succeeds for every chunk, and the
whole threading pipeline never fails. -/
theorem claim_C10_merge_into_safe (readF : Str → Option Str)
    (kws chunk files : List Str) (part shared : Dict) (n : Int) :
    (scan_files readF chunk kws = some part →
      dkeys part = dkeys (initDict kws)) ∧
    (scan_files readF chunk kws = some part →
      dkeys shared = dkeys (initDict kws) →
      (merge_into shared part).isSome = true) ∧
    (run_threading readF files kws n).isSome = true := by
  obtain ⟨s, hs, hsk, hsl⟩ := scan_files_spec readF chunk kws
  refine ⟨?_, ?_, ?_⟩
  · intro hp
    rw [hs] at hp
    have hps : s = part := Option.some.inj hp
    subst hps
    exact hsk
  · intro hp hsh
    rw [hs] at hp
    have hps : s = part := Option.some.inj hp
    subst hps
    exact merge_into_isSome s shared (by
      intro k hkk
      rw [hsh]
      rw [hsk] at hkk
      exact hkk)
  · obtain ⟨d, hd, _, _⟩ :=
      th_fold_spec readF kws (chunked files n) (initDict kws) (fun _ => [])
        rfl (by intro k; rw [dlookup_initDict])
    rw [run_threading, hd]
    rfl

/-! ### Witnesses: the claim theorems applied at concrete inputs -/

theorem claim_C1_membership_witness :
    (['a'] : Str) ∈ ([['a']] : List Str) ↔
      ∃ c, readFix ['a'] = some c ∧
        pyIn (strLower ['r']) (strLower c) = true :=
  (claim_C1_membership readFix [['a']] [['r']] 2 ['r'] ['a']
    (by decide) (by decide)).1 [(['r'], [['a']])] [['a']]
    (by decide) (by decide)

theorem claim_C2_worker_invariance_witness :
    run_multiprocessing readFix [['a']] [['r']] 1 =
      run_multiprocessing readFix [['a']] [['r']] 2 ∧
    run_threading readFix [['a']] [['r']] 1 =
      run_threading readFix [['a']] [['r']] 2 ∧
    run_multiprocessing readFix [['a']] [['r']] 1 =
      scan_files readFix [['a']] [['r']] :=
  claim_C2_worker_invariance readFix [['a']] [['r']] 1 2 (by decide) (by decide)

theorem claim_C3_key_set_witness :
    (run_multiprocessing readFix [] [['x']] 4).isSome = true ∧
    ((['x'] : Str) ∈ dkeys [((['x'] : Str), ([] : List Str))] ↔
      (['x'] : Str) ∈ ([['x']] : List Str)) :=
  ⟨(claim_C3_key_set readFix [] [['x']] 4 ['x']).1,
    (claim_C3_key_set readFix [] [['x']] 4 ['x']).2.2.1
      [(['x'], [])] (by decide)⟩

theorem claim_C4_partition_cover_witness :
    (chunked [['a'], ['b'], ['c']] 2).flatten = [['a'], ['b'], ['c']] :=
  claim_C4_partition_cover [['a'], ['b'], ['c']] 2 (by decide)

theorem claim_C5_partitioner_contract_witness :
    chunked ([] : List Str) 3 = [] ∧
    (chunked [['a'], ['b'], ['c']] 2).length =
      (([['a'], ['b'], ['c']] : List Str).length + 2 - 1) / 2 ∧
    (chunked [['a'], ['b'], ['c']] 2)[0]? =
      some ((([['a'], ['b'], ['c']] : List Str).drop (0 * 2)).take 2) ∧
    ((([['a'], ['b'], ['c']] : List Str).drop (0 * 2)).take 2).length = 2 ∧
    (([['a'], ['b']] : List Str).length ≤ 2 ∧ ([['a'], ['b']] : List Str) ≠ []) ∧
    (chunked [['a'], ['b'], ['c']] 2).length ≤ (2 : Int).toNat := by
  have h := claim_C5_partitioner_contract [['a'], ['b'], ['c']] 2 2 2
    (by decide) (by decide)
  have hn := h.2.1 (by decide)
  exact ⟨(claim_C5_partitioner_contract [] 3 3 0 (by decide) (by decide)).1 rfl,
    hn.1, hn.2.1 0 (by decide), hn.2.2.1 0 (by decide),
    hn.2.2.2 [['a'], ['b']] (by decide), h.2.2 (by decide)⟩

theorem claim_C7_unreadable_file_skipped_witness :
    (scan_files readFixBad ([['a']] ++ ['b'] :: [['c']]) [['r']]).isSome = true ∧
    scan_files readFixBad ([['a']] ++ ['b'] :: [['c']]) [['r']] =
      scan_files readFixBad ([['a']] ++ [['c']]) [['r']] :=
  claim_C7_unreadable_file_skipped readFixBad [['r']] ['b'] [['a']] [['c']]
    (by decide)

theorem claim_C8_amended_witness :
    main_search (fun _ => []) readFix ['r', 't'] [['x'], ['y']] 3 =
      some (initDict [['x'], ['y']]) :=
  claim_C8_amended (fun _ => []) readFix ['r', 't'] [['x'], ['y']] 3 rfl

theorem claim_C9_duplicate_keywords_witness :
    (scan_files readAll [['f']] [['a'], ['a']]).isSome = true ∧
    (dkeys [((['a'] : Str), [(['f'] : Str), ['f']])]).countP
      (fun x => decide (x = ['a'])) = 1 ∧
    ([(['f'] : Str), ['f']] : List Str).countP
      (fun x => decide (x = ['f'])) = 2 := by
  have h := claim_C9_duplicate_keywords readAll [['f']] [['a'], ['a']] ['a']
    (by decide) (by decide)
  have h2 := h.2 [(['a'], [['f'], ['f']])] (by decide)
  exact ⟨h.1, h2.1, h2.2 [['f'], ['f']] ['f'] (by decide) (by decide) (by decide)⟩

theorem claim_C10_merge_into_safe_witness :
    dkeys [((['r'] : Str), [(['a'] : Str)])] = dkeys (initDict [['r']]) ∧
    (merge_into (initDict [['r']]) [(['r'], [['a']])]).isSome = true ∧
    (run_threading readFix [['a']] [['r']] 2).isSome = true := by
  have h := claim_C10_merge_into_safe readFix [['r']] [['a']] [['a']]
    [(['r'], [['a']])] (initDict [['r']]) 2
  exact ⟨h.1 (by decide), h.2.1 (by decide) (by decide), h.2.2⟩
